import Mathlib

/-!
# Verification of the LearnCraft transcript-segmentation / LO-alignment core

Shallow embedding of the core logic of `src/backend/server.ts`:

* `segmentTranscript` (server.ts:481-503) — paragraph split + cap at 40 segments;
* `stripCodeFences` / `tryParseJSON` (server.ts:339-348) — model-reply cleanup;
* the response validation / merge step of `generateLoAlignmentForLesson`
  (server.ts:903-1003) — per-record and per-link validation, confidence
  clamping, and reconciliation onto the base segments.

JavaScript runtime values that flow through the untyped parts of the code
(the parsed model reply) are modelled by the inductive type `JValue`; JS
numbers are modelled by `JNum` (an exact rational for the finite case plus
the three non-finite values).  Rationals are a superset of the IEEE doubles
the runtime uses; the only arithmetic performed by the code under scrutiny
(`Math.max(0, Math.min(1, conf))`) is exact on doubles, so nothing is lost.
Built-in coercions (`String(...)`, `Number(...)`, truthiness, `JSON.parse`)
are modelled below where the code relies on them.
-/

set_option maxHeartbeats 1000000
set_option maxRecDepth 100000

/-- A JavaScript number: a finite value (exact rational) or one of the
three non-finite values.  `-0` is identified with `0`, matching the
SameValueZero equality used by `Map` keys and the behaviour of the one
arithmetic expression in the code. -/
inductive JNum where
  | fin (q : ℚ)
  | inf
  | negInf
  | nan
deriving DecidableEq

/-- `Number.isFinite`. -/
def JNum.isFinite : JNum → Bool
  | .fin _ => true
  | _ => false

/-- The rational value of a finite JS number (`0` for the non-finite ones;
only ever used under an `isFinite` guard, as in the code). -/
def JNum.toQ : JNum → ℚ
  | .fin q => q
  | _ => 0

/-- A JavaScript runtime value, as far as the untyped alignment-response
code can observe one.  `undefined` is the value of a missing property. -/
inductive JValue where
  | null
  | undefined
  | bool (b : Bool)
  | num (n : JNum)
  | str (s : String)
  | arr (elems : List JValue)
  | obj (fields : List (String × JValue))

/-- JS truthiness: `false`, `0`, `NaN`, `""`, `null`, `undefined` are falsy,
everything else (including every array and object) is truthy. -/
def jsTruthy : JValue → Bool
  | .null => false
  | .undefined => false
  | .bool b => b
  | .num (.fin q) => q ≠ 0
  | .num .nan => false
  | .num _ => true
  | .str s => s ≠ ""
  | .arr _ => true
  | .obj _ => true

/-- Property access `v.k`: only plain objects carry the properties the code
reads (`index`, `lo_links`, `lo_id`, `lo_title`, `confidence`, `segments`);
on every other value those reads yield `undefined`.  For duplicate keys the
last one wins, matching `JSON.parse`. -/
def getField (v : JValue) (k : String) : JValue :=
  match v with
  | .obj fields =>
      (fields.foldl (fun acc p => if p.1 = k then some p.2 else acc) none).getD .undefined
  | _ => .undefined

/-- The JS `a || b` operator. -/
def jsOr (a b : JValue) : JValue := if jsTruthy a then a else b

/-- `typeof v === "number"`. -/
def jsIsNumberVal : JValue → Bool
  | .num _ => true
  | _ => false

/-- `Array.isArray`. -/
def jsIsArrayVal : JValue → Bool
  | .arr _ => true
  | _ => false

/-- `Number.isInteger` on a value: a finite number with integral value. -/
def jsIsIntegerVal : JValue → Bool
  | .num (.fin q) => q.den = 1
  | _ => false

/-- The value is a finite number (without any coercion). -/
def jsIsFiniteNumberVal : JValue → Bool
  | .num (.fin _) => true
  | _ => false

/-! ## String and number coercions -/

/-- JS whitespace (the WhiteSpace and LineTerminator productions used by
`String.prototype.trim` and string-to-number conversion). -/
def isJsWhitespace (c : Char) : Bool :=
  c = ' ' ∨ c = '\t' ∨ c = '\n' ∨ c = '\r' ∨ c = '\x0b' ∨ c = '\x0c' ∨
  c = '\u00A0' ∨ c = '\uFEFF' ∨ c = '\u1680' ∨ ('\u2000' ≤ c ∧ c ≤ '\u200A') ∨
  c = '\u2028' ∨ c = '\u2029' ∨ c = '\u202F' ∨ c = '\u205F' ∨ c = '\u3000'

/-- JS `String.prototype.trim`. -/
def jsTrim (s : String) : String :=
  String.mk (((s.toList.dropWhile isJsWhitespace).reverse.dropWhile isJsWhitespace).reverse)

/-- Digits to a natural number, most significant first. -/
def digitsToNat (ds : List Char) : Nat :=
  ds.foldl (fun acc c => acc * 10 + (c.toNat - 48)) 0

/-- The rational `(ip.fp) × 10^(±mag)` given the integer digits value `ip`,
the fraction digits value `fp` with `fl` digits, and the exponent sign and
magnitude.  Phrased with integer arithmetic and a single `mkRat` so the
value is an exact rational. -/
def decToRat (ip fp fl : Nat) (eneg : Bool) (mag : Nat) : ℚ :=
  let base : Nat := ip * 10 ^ fl + fp
  if eneg then mkRat base (10 ^ fl * 10 ^ mag)
  else mkRat (base * 10 ^ mag) (10 ^ fl)

/-- Decimal digits of the fractional part of `num / den`, up to `fuel`
digits (enough for every value the code meets; JS prints the shortest
round-tripping form, which for terminating decimals is this expansion). -/
def fracDigits (fuel : Nat) (num den : Nat) : String :=
  match fuel with
  | 0 => ""
  | fuel + 1 =>
      if num = 0 then ""
      else
        let d := num * 10 / den
        (Nat.repr d) ++ fracDigits fuel (num * 10 % den) den

/-- Decimal rendering of a rational, modelling JS `String()` on a finite
number (exponential notation for extreme magnitudes is not modelled; the
code never produces such values on the paths verified here). -/
def ratToStr (q : ℚ) : String :=
  let sgn := if q < 0 then "-" else ""
  let n := q.num.natAbs
  let d := q.den
  let rem := n % d
  sgn ++ Nat.repr (n / d) ++ (if rem = 0 then "" else "." ++ fracDigits 64 rem d)

/-- JS `String()` on a number. -/
def numToStr : JNum → String
  | .fin q => ratToStr q
  | .inf => "Infinity"
  | .negInf => "-Infinity"
  | .nan => "NaN"

mutual

/-- JS `String()` coercion.  Arrays stringify as their elements joined by
commas with `null`/`undefined` elements becoming empty, plain objects as
`"[object Object]"`. -/
def toStr : JValue → String
  | .null => "null"
  | .undefined => "undefined"
  | .bool b => cond b "true" "false"
  | .num n => numToStr n
  | .str s => s
  | .arr xs => String.intercalate "," (toStrList xs)
  | .obj _ => "[object Object]"

/-- Element-wise stringification used by array `toString`. -/
def toStrList : List JValue → List String
  | [] => []
  | .null :: vs => "" :: toStrList vs
  | .undefined :: vs => "" :: toStrList vs
  | v :: vs => toStr v :: toStrList vs

end

/-- Span of decimal digits. -/
def spanDigits (cs : List Char) : List Char × List Char :=
  cs.span (fun c => c.isDigit)

/-- Parse an unsigned decimal JS number literal (`123`, `1.5`, `.5`, `1.`,
`1e3`, `1.5E-2`); the whole input must be consumed. -/
def parseDecimal (cs : List Char) : Option ℚ :=
  let (intD, r1) := spanDigits cs
  let (fracD, r2) :=
    match r1 with
    | '.' :: rest => spanDigits rest
    | _ => ([], r1)
  if intD = [] ∧ fracD = [] then none
  else
    match r2 with
    | [] => some (decToRat (digitsToNat intD) (digitsToNat fracD) fracD.length false 0)
    | e :: r3 =>
        if e = 'e' ∨ e = 'E' then
          let (neg, r4) :=
            match r3 with
            | '+' :: rest => (false, rest)
            | '-' :: rest => (true, rest)
            | rest => (false, rest)
          let (expD, r5) := spanDigits r4
          if expD = [] ∨ r5 ≠ [] then none
          else
            some (decToRat (digitsToNat intD) (digitsToNat fracD) fracD.length neg
              (digitsToNat expD))
        else none

/-- Hex digit value. -/
def hexVal (c : Char) : Nat :=
  if c.isDigit then c.toNat - 48
  else if 'a' ≤ c ∧ c ≤ 'f' then c.toNat - 87
  else 10 + (c.toNat - 65)

/-- Parse an unsigned radix literal (`0x…`, `0o…`, `0b…`). -/
def parseRadix (cs : List Char) : Option ℚ :=
  match cs with
  | '0' :: m :: ds =>
      let radix : Option Nat :=
        if m = 'x' ∨ m = 'X' then some 16
        else if m = 'o' ∨ m = 'O' then some 8
        else if m = 'b' ∨ m = 'B' then some 2
        else none
      match radix with
      | none => none
      | some r =>
          let ok (c : Char) : Bool :=
            if r = 16 then c.isDigit ∨ ('a' ≤ c ∧ c ≤ 'f') ∨ ('A' ≤ c ∧ c ≤ 'F')
            else if r = 8 then '0' ≤ c ∧ c ≤ '7'
            else c = '0' ∨ c = '1'
          if ds = [] ∨ ¬ ds.all ok then none
          else some ((ds.foldl (fun acc c => acc * r + hexVal c) 0 : Nat) : ℚ)
  | _ => none

/-- Parse an unsigned `Infinity` or decimal literal. -/
def parseDecOrInf (cs : List Char) : Option JNum :=
  if cs = "Infinity".toList then some .inf
  else (parseDecimal cs).map .fin

/-- Negate a JS number. -/
def JNum.neg : JNum → JNum
  | .fin q => .fin (-q)
  | .inf => .negInf
  | .negInf => .inf
  | .nan => .nan

/-- JS `Number()` on a string (the string ToNumber conversion): trim, empty
means `0`, optional sign for decimal / `Infinity`, radix prefixes without a
sign, everything else is `NaN`. -/
def strToNum (s : String) : JNum :=
  match (jsTrim s).toList with
  | [] => .fin 0
  | '+' :: rest => (parseDecOrInf rest).getD .nan
  | '-' :: rest => ((parseDecOrInf rest).map JNum.neg).getD .nan
  | cs =>
      match parseRadix cs with
      | some q => .fin q
      | none => (parseDecOrInf cs).getD .nan

/-- JS `Number()` coercion.  Objects and arrays convert via their default
string form (ToPrimitive with the default `toString`). -/
def toNumber : JValue → JNum
  | .null => .fin 0
  | .undefined => .nan
  | .bool b => .fin (cond b 1 0)
  | .num n => n
  | .str s => strToNum s
  | .arr xs => strToNum (toStr (.arr xs))
  | .obj fs => strToNum (toStr (.obj fs))

/-! ## JSON parsing (model of `JSON.parse`, used by `tryParseJSON`) -/

/-- JSON insignificant whitespace. -/
def jsonWs (c : Char) : Bool := c = ' ' ∨ c = '\t' ∨ c = '\n' ∨ c = '\r'

/-- Parse the remainder of a JSON string literal (the opening quote already
consumed), handling the escape sequences of the JSON grammar.  `\uXXXX`
code units are mapped through `Char.ofNat` (lone surrogates, which Lean
characters cannot represent, are not modelled; the code never produces
them). -/
def parseJStr (fuel : Nat) (cs : List Char) (acc : List Char) :
    Option (String × List Char) :=
  match fuel with
  | 0 => none
  | fuel + 1 =>
      match cs with
      | [] => none
      | '"' :: rest => some (String.mk acc.reverse, rest)
      | '\\' :: e :: rest =>
          match e with
          | '"' => parseJStr fuel rest ('"' :: acc)
          | '\\' => parseJStr fuel rest ('\\' :: acc)
          | '/' => parseJStr fuel rest ('/' :: acc)
          | 'b' => parseJStr fuel rest ('\x08' :: acc)
          | 'f' => parseJStr fuel rest ('\x0c' :: acc)
          | 'n' => parseJStr fuel rest ('\n' :: acc)
          | 'r' => parseJStr fuel rest ('\r' :: acc)
          | 't' => parseJStr fuel rest ('\t' :: acc)
          | 'u' =>
              match rest with
              | a :: b :: c :: d :: rest2 =>
                  if [a, b, c, d].all (fun h => h.isDigit ∨ ('a' ≤ h ∧ h ≤ 'f') ∨ ('A' ≤ h ∧ h ≤ 'F')) then
                    parseJStr fuel rest2
                      (Char.ofNat (((hexVal a * 16 + hexVal b) * 16 + hexVal c) * 16 + hexVal d) :: acc)
                  else none
              | _ => none
          | _ => none
      | c :: rest =>
          if c.toNat < 32 then none else parseJStr fuel rest (c :: acc)

/-- Parse a JSON number (strict JSON grammar: optional minus, `0` or a
nonzero-led digit run, optional fraction, optional exponent).  The value is
kept as an exact rational (the double rounding `JSON.parse` performs is not
modelled; it is irrelevant to validity). -/
def parseJsonNum (cs : List Char) : Option (ℚ × List Char) :=
  let (neg, cs1) :=
    match cs with
    | '-' :: rest => (true, rest)
    | rest => (false, rest)
  let (intD, cs2) := spanDigits cs1
  if intD = [] then none
  else if intD.length > 1 ∧ intD.headD '0' = '0' then none
  else
    let (fracD, cs3) :=
      match cs2 with
      | '.' :: rest =>
          let (ds, r) := spanDigits rest
          (ds, if ds = [] then cs2 else r)
      | _ => ([], cs2)
    let dotWithoutDigits : Bool :=
      match cs2 with
      | '.' :: _ => fracD.isEmpty
      | _ => false
    if dotWithoutDigits then none
    else
      let ip := digitsToNat intD
      let fp := digitsToNat fracD
      let fl := fracD.length
      let contExp : Option (ℚ × List Char) :=
        match cs3 with
        | e :: r3 =>
            if e = 'e' ∨ e = 'E' then
              let (eneg, r4) :=
                match r3 with
                | '+' :: rest => (false, rest)
                | '-' :: rest => (true, rest)
                | rest => (false, rest)
              let (expD, r5) := spanDigits r4
              if expD = [] then none
              else some (decToRat ip fp fl eneg (digitsToNat expD), r5)
            else some (decToRat ip fp fl false 0, cs3)
        | [] => some (decToRat ip fp fl false 0, cs3)
      contExp.map (fun p => (if neg then -p.1 else p.1, p.2))

mutual

/-- Parse one JSON value (after skipping leading whitespace). -/
def parseJVal (fuel : Nat) (cs : List Char) : Option (JValue × List Char) :=
  match fuel with
  | 0 => none
  | fuel + 1 =>
      match cs.dropWhile jsonWs with
      | 'n' :: 'u' :: 'l' :: 'l' :: rest => some (.null, rest)
      | 't' :: 'r' :: 'u' :: 'e' :: rest => some (.bool true, rest)
      | 'f' :: 'a' :: 'l' :: 's' :: 'e' :: rest => some (.bool false, rest)
      | '"' :: rest =>
          (parseJStr (rest.length + 1) rest []).map (fun p => (.str p.1, p.2))
      | '[' :: rest =>
          (match rest.dropWhile jsonWs with
           | ']' :: rest2 => some (.arr [], rest2)
           | _ => (parseJItems fuel rest).map (fun p => (.arr p.1, p.2)))
      | '{' :: rest =>
          (match rest.dropWhile jsonWs with
           | '}' :: rest2 => some (.obj [], rest2)
           | _ => (parseJMembers fuel rest).map (fun p => (.obj p.1, p.2)))
      | cs2 =>
          (parseJsonNum cs2).map (fun p => (JValue.num (.fin p.1), p.2))

/-- Parse the comma-separated elements of a (non-empty) JSON array,
including the closing bracket. -/
def parseJItems (fuel : Nat) (cs : List Char) : Option (List JValue × List Char) :=
  match fuel with
  | 0 => none
  | fuel + 1 =>
      match parseJVal fuel cs with
      | none => none
      | some (v, rest) =>
          match rest.dropWhile jsonWs with
          | ',' :: rest2 => (parseJItems fuel rest2).map (fun p => (v :: p.1, p.2))
          | ']' :: rest2 => some ([v], rest2)
          | _ => none

/-- Parse the members of a (non-empty) JSON object, including the closing
brace. -/
def parseJMembers (fuel : Nat) (cs : List Char) : Option (List (String × JValue) × List Char) :=
  match fuel with
  | 0 => none
  | fuel + 1 =>
      match (cs.dropWhile jsonWs) with
      | '"' :: rest =>
          match parseJStr (rest.length + 1) rest [] with
          | none => none
          | some (k, rest2) =>
              match rest2.dropWhile jsonWs with
              | ':' :: rest3 =>
                  match parseJVal fuel rest3 with
                  | none => none
                  | some (v, rest4) =>
                      match rest4.dropWhile jsonWs with
                      | ',' :: rest5 => (parseJMembers fuel rest5).map (fun p => ((k, v) :: p.1, p.2))
                      | '}' :: rest5 => some ([(k, v)], rest5)
                      | _ => none
              | _ => none
      | _ => none

end

/-- Model of `JSON.parse`: parse one value and require only whitespace to
remain.  Returns `none` where `JSON.parse` throws. -/
def jsonParse (s : String) : Option JValue :=
  let cs := s.toList
  match parseJVal (2 * cs.length + 8) cs with
  | some (v, rest) => if rest.dropWhile jsonWs = [] then some v else none
  | none => none

/-- `tryParseJSON` (server.ts:342-348): `JSON.parse` with the exception
mapped to `null`; modelled as `Option`. -/
def tryParseJSON (s : String) : Option JValue := jsonParse s

/-! ## `stripCodeFences` (server.ts:339-340) -/

/-- The backquote character. -/
def backquote : Char := Char.ofNat 96

/-- The next seven characters spell a three-backquote fence followed by
`json` in any case. -/
def fenceJsonAt : List Char → Bool
  | a :: b :: d :: j :: s :: o :: n :: _ =>
      a = backquote ∧ b = backquote ∧ d = backquote ∧
      j.toLower = 'j' ∧ s.toLower = 's' ∧ o.toLower = 'o' ∧ n.toLower = 'n'
  | _ => false

/-- One global, case-insensitive pass removing every occurrence of
three-backquotes-then-`json`, scanning left to right and continuing after
each removal, exactly as `s.replace(/\x60\x60\x60json/gi, "")` does.
Structural recursion on a fuel that bounds the input length. -/
def stripJsonFenceF (fuel : Nat) (cs : List Char) : List Char :=
  match fuel, cs with
  | _, [] => []
  | 0, cs => cs
  | fuel + 1, c :: rest =>
      if fenceJsonAt (c :: rest) then stripJsonFenceF fuel (rest.drop 6)
      else c :: stripJsonFenceF fuel rest

/-- The fence-`json` removal pass on a whole input. -/
def stripJsonFence (cs : List Char) : List Char := stripJsonFenceF cs.length cs

/-- The next three characters are all backquotes. -/
def fenceAt : List Char → Bool
  | a :: b :: d :: _ => a = backquote ∧ b = backquote ∧ d = backquote
  | _ => false

/-- One global pass removing every occurrence of three backquotes. -/
def stripTripleF (fuel : Nat) (cs : List Char) : List Char :=
  match fuel, cs with
  | _, [] => []
  | 0, cs => cs
  | fuel + 1, c :: rest =>
      if fenceAt (c :: rest) then stripTripleF fuel (rest.drop 2)
      else c :: stripTripleF fuel rest

/-- The bare-fence removal pass on a whole input. -/
def stripTriple (cs : List Char) : List Char := stripTripleF cs.length cs

/-- `stripCodeFences` (server.ts:339-340): drop `…json` fences, then bare
fences, then trim. -/
def stripCodeFences (s : String) : String :=
  jsTrim (String.mk (stripTriple (stripJsonFence s.toList)))

/-! ## `segmentTranscript` (server.ts:481-503) -/

/-- A transcript segment (`{ index, text }`, server.ts:481). -/
structure Segment where
  index : Nat
  text : String
deriving DecidableEq, Repr

/-- Split a character list at each maximal run of two or more newlines,
modelling `raw.split(/\n\x7b2,\x7d/)`: a greedy regex split that consumes
every newline of the run and keeps single newlines inside the parts.
Structural recursion on a fuel that bounds the input length. -/
def splitOnBlankF (fuel : Nat) (cs : List Char) (acc : List Char) : List String :=
  match fuel, cs with
  | _, [] => [String.mk acc.reverse]
  | 0, _ => [String.mk acc.reverse]
  | fuel + 1, '\n' :: '\n' :: rest =>
      String.mk acc.reverse :: splitOnBlankF fuel (rest.dropWhile (fun c => c = '\n')) []
  | fuel + 1, c :: rest => splitOnBlankF fuel rest (c :: acc)

/-- The paragraph split on a whole input. -/
def splitOnBlank (cs : List Char) (acc : List Char) : List String :=
  splitOnBlankF cs.length cs acc

/-- `parts.slice(i, i + chunkSize)` grouping loop (server.ts:495-499):
consecutive chunks of `n` elements (callers always pass `n ≥ 1`).
Structural recursion on a fuel that bounds the input length. -/
def chunksF (fuel n : Nat) (l : List α) : List (List α) :=
  match fuel, l with
  | _, [] => []
  | 0, _ => []
  | fuel + 1, x :: xs => (x :: xs.take (n - 1)) :: chunksF fuel n (xs.drop (n - 1))

/-- The grouping loop on a whole input. -/
def chunks (n : Nat) (l : List α) : List (List α) := chunksF l.length n l

/-- `parts.map((text, index) => (\x7b index, text \x7d))` with an explicit
running index. -/
def withIndexFrom : Nat → List String → List Segment
  | _, [] => []
  | i, t :: ts => ⟨i, t⟩ :: withIndexFrom (i + 1) ts

/-- `(lectureText || "").replace(/\r\n/g, "\n")` (server.ts:482): CRLF
normalization, scanning left to right without rescanning replacements. -/
def normCRLF : List Char → List Char
  | '\r' :: '\n' :: rest => '\n' :: normCRLF rest
  | c :: rest => c :: normCRLF rest
  | [] => []

/-- The normalized transcript text (`raw` in the source). -/
def rawText (lectureText : String) : String :=
  String.mk (normCRLF lectureText.toList)

/-- The raw paragraph list of a transcript: normalize line endings, split
on blank lines, trim each part and drop the empty ones
(server.ts:482-486). -/
def rawParas (lectureText : String) : List String :=
  ((splitOnBlank (rawText lectureText).toList []).map jsTrim).filter (fun p => p ≠ "")

/-- `segmentTranscript` (server.ts:481-503). -/
def segmentTranscript (lectureText : String) : List Segment :=
  let parts := rawParas lectureText
  if parts.isEmpty then [⟨0, jsTrim (rawText lectureText)⟩]
  else
    let parts2 :=
      if parts.length > 40 then
        (chunks ((parts.length + 39) / 40) parts).map
          (fun g => String.intercalate "\n\n" g)
      else parts
    withIndexFrom 0 parts2

/-! ## The alignment merge step (server.ts:975-1002) -/

/-- A validated learning-outcome link (server.ts:318-322). -/
structure LoLink where
  lo_id : String
  lo_title : String
  confidence : ℚ
deriving DecidableEq, Repr

/-- An aligned segment (server.ts:324-328). -/
structure LoAlignedSegment where
  index : Nat
  text : String
  lo_links : List LoLink
deriving DecidableEq, Repr

/-- `String(l.lo_id || "").trim()` (server.ts:983). -/
def linkLoId (l : JValue) : String :=
  jsTrim (toStr (jsOr (getField l "lo_id") (.str "")))

/-- `String(l.lo_title || "").trim()` (server.ts:984). -/
def linkLoTitle (l : JValue) : String :=
  jsTrim (toStr (jsOr (getField l "lo_title") (.str "")))

/-- `Number(l.confidence)` (server.ts:985). -/
def linkConf (l : JValue) : JNum :=
  toNumber (getField l "confidence")

/-- `Math.max(0, Math.min(1, conf))` (server.ts:990). -/
def clamp01 (c : ℚ) : ℚ := max 0 (min 1 c)

/-- The body of the inner link loop (server.ts:981-992): `continue` on a
falsy entry, coerce `lo_id`/`lo_title`/`confidence`, `continue` when either
string is empty or the number is not finite, else keep the link with the
clamped confidence. -/
def validateLink (l : JValue) : Option LoLink :=
  if jsTruthy l = false then none
  else if linkLoId l = "" ∨ linkLoTitle l = "" ∨ (linkConf l).isFinite = false then none
  else some ⟨linkLoId l, linkLoTitle l, clamp01 (linkConf l).toQ⟩

/-- The body of the outer record loop (server.ts:977-994): `continue`
unless `typeof item?.index === "number"` and `Array.isArray(item?.lo_links)`,
else collect the validated links under the declared index. -/
def processRecord (item : JValue) : Option (JNum × List LoLink) :=
  match getField item "index", getField item "lo_links" with
  | .num n, .arr ls => some (n, ls.filterMap validateLink)
  | _, _ => none

/-- `Map.set` (SameValueZero keys; setting an existing key replaces its
value). -/
def mapSet (m : List (JNum × List LoLink)) (k : JNum) (v : List LoLink) :
    List (JNum × List LoLink) :=
  match m with
  | [] => [(k, v)]
  | (k2, v2) :: rest => if k2 = k then (k, v) :: rest else (k2, v2) :: mapSet rest k v

/-- `Map.get` (returning `undefined`, i.e. `none`, for an absent key). -/
def mapGet (m : List (JNum × List LoLink)) (k : JNum) : Option (List LoLink) :=
  match m with
  | [] => none
  | (k2, v) :: rest => if k2 = k then some v else mapGet rest k

/-- One iteration of the record loop: skip or `linksByIndex.set`. -/
def lookupStep (m : List (JNum × List LoLink)) (item : JValue) :
    List (JNum × List LoLink) :=
  match processRecord item with
  | some p => mapSet m p.1 p.2
  | none => m

/-- `linksByIndex` built by the record loop (server.ts:975-994). -/
def buildLookup (records : List JValue) : List (JNum × List LoLink) :=
  records.foldl lookupStep []

/-- The final reconciliation (server.ts:996-1000): one output per base
segment in order, looking its index up in `linksByIndex` and defaulting to
`[]` (`linksByIndex.get(seg.index) || []`). -/
def mergeAligned (base : List Segment) (records : List JValue) :
    List LoAlignedSegment :=
  let m := buildLookup records
  base.map (fun seg => ⟨seg.index, seg.text, (mapGet m (.fin (seg.index : ℚ))).getD []⟩)

/-- The parse / shape check on the model reply (server.ts:967-973): strip
fences, `tryParseJSON`, and throw the single error
`"LO alignment JSON parse/schema error"` unless `parsed?.segments` is a
truthy array.  Both the not-valid-JSON case and the missing-`segments`
case flow through this one check. -/
def parseAlignmentResponse (rawText : String) : Except String (List JValue) :=
  let cleaned := stripCodeFences rawText
  let parsed := (tryParseJSON cleaned).getD .null
  if jsTruthy (getField parsed "segments") = false then
    .error "LO alignment JSON parse/schema error"
  else
    match getField parsed "segments" with
    | .arr xs => .ok xs
    | _ => .error "LO alignment JSON parse/schema error"

/-- `(learningOutcomes || []).map((t) => String(t || "").trim()).filter(Boolean)`
(server.ts:914-916); on honest string inputs `String(t || "")` is `t`
itself. -/
def normalizeLOs (learningOutcomes : List String) : List String :=
  (learningOutcomes.map (fun t => jsTrim t)).filter (fun t => t ≠ "")

/-- `LOs.map((lo, i) => \x60LO${i + 1}: ${lo}\x60)` (server.ts:922) with an
explicit running position. -/
def loLines : Nat → List String → List String
  | _, [] => []
  | i, lo :: rest => ("LO" ++ Nat.repr (i + 1) ++ ": " ++ lo) :: loLines (i + 1) rest

/-- The LO catalogue lines sent in the prompt. -/
def loCatalogue (los : List String) : List String := loLines 0 los

/-- `generateLoAlignmentForLesson` (server.ts:903-1003) with the external
model call abstracted into the oracle argument `modelReply` (the text the
model returned); everything else follows the source: segment, reject an
empty segment list, normalize outcomes and reject an empty catalogue (all
before the reply is consulted), then parse / check / merge. -/
def generateLoAlignmentForLesson (lectureText : String)
    (learningOutcomes : List String) (modelReply : String) :
    Except String (List LoAlignedSegment) :=
  let baseSegments := segmentTranscript lectureText
  if baseSegments.isEmpty then
    .error "Transcript is empty; cannot generate alignment."
  else if (normalizeLOs learningOutcomes).isEmpty then
    .error "Learning Outcomes list is empty; LO alignment requires LOs."
  else
    match parseAlignmentResponse modelReply with
    | .error e => .error e
    | .ok recs => .ok (mergeAligned baseSegments recs)

/-! ## Exception-level model of the merge step (for the never-throws claim)

The only expressions in the record loop that can throw in JavaScript are
property reads on `null`/`undefined`.  `item?.index` and `item?.lo_links`
use optional chaining and cannot throw; the reads `l.lo_id`, `l.lo_title`,
`l.confidence` inside the link loop are plain accesses guarded by
`if (!l) continue` (server.ts:982).  The `…E` functions below model those
plain accesses with a thrown `TypeError` on a nullish base, so that
"the merge never throws" is a real statement rather than an artifact of a
total embedding. -/

/-- A plain (non-optional) property access, which throws on `null` and
`undefined`. -/
def getFieldE (v : JValue) (k : String) : Except String JValue :=
  match v with
  | .null => .error "TypeError: cannot read properties of null"
  | .undefined => .error "TypeError: cannot read properties of undefined"
  | _ => .ok (getField v k)

/-- The link-loop body with throwing property accesses. -/
def validateLinkE (l : JValue) : Except String (Option LoLink) :=
  if jsTruthy l = false then .ok none
  else do
    let idv ← getFieldE l "lo_id"
    let titlev ← getFieldE l "lo_title"
    let confv ← getFieldE l "confidence"
    let loId := jsTrim (toStr (jsOr idv (.str "")))
    let loTitle := jsTrim (toStr (jsOr titlev (.str "")))
    let conf := toNumber confv
    if loId = "" ∨ loTitle = "" ∨ conf.isFinite = false then .ok none
    else .ok (some ⟨loId, loTitle, clamp01 conf.toQ⟩)

/-- The link loop over one record's `lo_links` array. -/
def collectLinksE : List JValue → Except String (List LoLink)
  | [] => .ok []
  | l :: ls => do
      let r ← validateLinkE l
      let rest ← collectLinksE ls
      match r with
      | none => .ok rest
      | some lk => .ok (lk :: rest)

/-- The record-loop body with throwing accesses in the link loop. -/
def processRecordE (item : JValue) : Except String (Option (JNum × List LoLink)) :=
  match getField item "index", getField item "lo_links" with
  | .num n, .arr ls => (collectLinksE ls).map (fun links => some (n, links))
  | _, _ => .ok none

/-- `linksByIndex` built with throwing accesses. -/
def buildLookupE (records : List JValue) : Except String (List (JNum × List LoLink)) :=
  records.foldlM
    (fun m item => do
      match ← processRecordE item with
      | none => pure m
      | some p => pure (mapSet m p.1 p.2))
    []

/-- The whole merge step with throwing accesses. -/
def mergeE (base : List Segment) (records : List JValue) :
    Except String (List LoAlignedSegment) := do
  let m ← buildLookupE records
  pure (base.map (fun seg => ⟨seg.index, seg.text, (mapGet m (.fin (seg.index : ℚ))).getD []⟩))

/-- The validated links of the *last* record in response order that is kept
by the record validation and declares index `k` — the phrase the
duplicate-index claim uses, as a standalone definition to compare the
merge result against. -/
def lastKept : List JValue → JNum → Option (List LoLink)
  | [], _ => none
  | item :: rest, k =>
      match lastKept rest k with
      | some v => some v
      | none =>
          match processRecord item with
          | some p => if p.1 = k then some p.2 else none
          | none => none

/-! ## General lemmas about the embedded operations -/

theorem withIndexFrom_length (n : Nat) (l : List String) :
    (withIndexFrom n l).length = l.length := by
  induction l generalizing n with
  | nil => rfl
  | cons t ts ih => simp [withIndexFrom, ih]

theorem withIndexFrom_get (n : Nat) (l : List String) (i : Nat)
    (h : i < (withIndexFrom n l).length) (h2 : i < l.length) :
    (withIndexFrom n l).get ⟨i, h⟩ = ⟨n + i, l.get ⟨i, h2⟩⟩ := by
  induction l generalizing n i with
  | nil => simp at h2
  | cons t ts ih =>
      cases i with
      | zero => simp [withIndexFrom]
      | succ j =>
          have hj : j < ts.length := by simpa using h2
          have hh : j < (withIndexFrom (n + 1) ts).length := by
            rw [withIndexFrom_length]; exact hj
          have := ih (n + 1) j hh hj
          simp only [withIndexFrom, List.get_cons_succ]
          rw [this]
          congr 1
          omega

theorem chunksF_nil (fuel n : Nat) : chunksF (α := α) fuel n [] = [] := by
  cases fuel <;> rfl

theorem chunksF_cons (fuel n : Nat) (x : α) (xs : List α) :
    chunksF (fuel + 1) n (x :: xs) =
      (x :: xs.take (n - 1)) :: chunksF fuel n (xs.drop (n - 1)) := rfl

theorem chunksF_length (n : Nat) (hn : 0 < n) :
    ∀ (fuel : Nat) (l : List α), l.length ≤ fuel →
      (chunksF fuel n l).length = (l.length + n - 1) / n := by
  intro fuel
  induction fuel with
  | zero =>
      intro l hl
      have : l = [] := List.length_eq_zero.mp (by omega)
      subst this
      rw [chunksF_nil]
      simp only [List.length_nil]
      exact (Nat.div_eq_of_lt (by omega)).symm
  | succ fuel ih =>
      intro l hl
      match l with
      | [] =>
          rw [chunksF_nil]
          simp only [List.length_nil]
          exact (Nat.div_eq_of_lt (by omega)).symm
      | x :: xs =>
          have hl2 : xs.length + 1 ≤ fuel + 1 := by simpa using hl
          rw [chunksF_cons]
          have hrec := ih (xs.drop (n - 1)) (by simp only [List.length_drop]; omega)
          simp only [List.length_cons, List.length_drop] at hrec ⊢
          rw [hrec]
          rcases Nat.lt_or_ge xs.length (n - 1) with hcase | hcase
          · rw [show xs.length - (n - 1) + n - 1 = n - 1 from by omega,
              Nat.div_eq_of_lt (by omega),
              show xs.length + 1 + n - 1 = xs.length + n from by omega,
              Nat.add_div_right _ hn, Nat.div_eq_of_lt (by omega)]
          · rw [show xs.length - (n - 1) + n - 1 = xs.length from by omega,
              show xs.length + 1 + n - 1 = xs.length + n from by omega,
              Nat.add_div_right _ hn]

theorem chunksF_get (n : Nat) (hn : 0 < n) :
    ∀ (fuel : Nat) (l : List α) (i : Nat) (h : i < (chunksF fuel n l).length),
      l.length ≤ fuel →
      (chunksF fuel n l).get ⟨i, h⟩ = (l.drop (n * i)).take n := by
  intro fuel
  induction fuel with
  | zero =>
      intro l i h hl
      have : l = [] := List.length_eq_zero.mp (by omega)
      subst this
      rw [chunksF_nil] at h
      simp at h
  | succ fuel ih =>
      intro l i h hl
      match l with
      | [] =>
          rw [chunksF_nil] at h
          simp at h
      | x :: xs =>
          have hl2 : xs.length + 1 ≤ fuel + 1 := by simpa using hl
          match i with
          | 0 =>
              have : (chunksF (fuel + 1) n (x :: xs)).get ⟨0, h⟩ = x :: xs.take (n - 1) := by
                rw [List.get_of_eq (chunksF_cons fuel n x xs)]
                rfl
              rw [this, Nat.mul_zero, List.drop_zero,
                show n = (n - 1) + 1 from by omega, List.take_succ_cons]
              simp
          | j + 1 =>
              have h2 : j < (chunksF fuel n (xs.drop (n - 1))).length := by
                have hh := h
                rw [chunksF_cons] at hh
                simpa using hh
              have hstep : (chunksF (fuel + 1) n (x :: xs)).get ⟨j + 1, h⟩ =
                  (chunksF fuel n (xs.drop (n - 1))).get ⟨j, h2⟩ := by
                rw [List.get_of_eq (chunksF_cons fuel n x xs)]
                rfl
              rw [hstep, ih (xs.drop (n - 1)) j h2 (by simp only [List.length_drop]; omega),
                List.drop_drop,
                show n * (j + 1) = (n - 1 + n * j) + 1 from by rw [Nat.mul_succ]; omega,
                List.drop_succ_cons]

theorem chunks_length (n : Nat) (hn : 0 < n) (l : List α) :
    (chunks n l).length = (l.length + n - 1) / n :=
  chunksF_length n hn l.length l (Nat.le_refl _)

theorem chunks_get (n : Nat) (hn : 0 < n) (l : List α) (i : Nat)
    (h : i < (chunks n l).length) :
    (chunks n l).get ⟨i, h⟩ = (l.drop (n * i)).take n :=
  chunksF_get n hn l.length l i h (Nat.le_refl _)

theorem mapGet_mapSet (m : List (JNum × List LoLink)) (k k2 : JNum) (v : List LoLink) :
    mapGet (mapSet m k v) k2 = if k = k2 then some v else mapGet m k2 := by
  induction m with
  | nil => simp [mapSet, mapGet]
  | cons p rest ih =>
      obtain ⟨pk, pv⟩ := p
      simp only [mapSet]
      by_cases h1 : pk = k
      · subst h1
        simp only [if_pos rfl, mapGet]
        by_cases h2 : pk = k2 <;> simp [h2]
      · simp only [if_neg h1, mapGet]
        by_cases h3 : pk = k2
        · have h2 : k ≠ k2 := fun hh => h1 (h3.trans hh.symm)
          simp [h3, h2]
        · simp [h3, ih]


theorem withIndexFrom_zero_index (l : List String) (i : Nat)
    (h : i < (withIndexFrom 0 l).length) :
    ((withIndexFrom 0 l).get ⟨i, h⟩).index = i := by
  have h2 : i < l.length := by rw [withIndexFrom_length] at h; exact h
  rw [withIndexFrom_get 0 l i h h2]
  simp

theorem segmentTranscript_of_no_paras (t : String) (h : rawParas t = []) :
    segmentTranscript t = [⟨0, jsTrim (rawText t)⟩] := by
  simp [segmentTranscript, h]

theorem segmentTranscript_small (t : String) (h1 : rawParas t ≠ [])
    (h2 : (rawParas t).length ≤ 40) :
    segmentTranscript t = withIndexFrom 0 (rawParas t) := by
  have h3 : ¬ (rawParas t).length > 40 := by omega
  simp [segmentTranscript, h1, h3]

theorem segmentTranscript_large (t : String) (h2 : 40 < (rawParas t).length) :
    segmentTranscript t =
      withIndexFrom 0 ((chunks (((rawParas t).length + 39) / 40) (rawParas t)).map
        (fun g => String.intercalate "\n\n" g)) := by
  have h1 : rawParas t ≠ [] := by
    intro hh
    rw [hh] at h2
    simp at h2
  simp [segmentTranscript, h1, h2]

/-! ## Claim theorems -/

/-- C1: for every list of base segments and every parsed model response,
the merge step returns exactly one `AlignedSegment` per base segment, in
the original order, with the `i`-th output's `index` equal to
`baseSegments[i].index` and its `text` equal to `baseSegments[i].text`;
an index with no valid response record yields an empty `lo_links` list,
never a missing record. -/
theorem claim1_merge_preserves_segments (base : List Segment) (records : List JValue) :
    (mergeAligned base records).length = base.length ∧
    ∀ i (hb : i < base.length) (hm : i < (mergeAligned base records).length),
      ((mergeAligned base records).get ⟨i, hm⟩).index = (base.get ⟨i, hb⟩).index ∧
      ((mergeAligned base records).get ⟨i, hm⟩).text = (base.get ⟨i, hb⟩).text ∧
      ((mergeAligned base records).get ⟨i, hm⟩).lo_links =
        (mapGet (buildLookup records) (.fin ((base.get ⟨i, hb⟩).index : ℚ))).getD [] ∧
      (mapGet (buildLookup records) (.fin ((base.get ⟨i, hb⟩).index : ℚ)) = none →
        ((mergeAligned base records).get ⟨i, hm⟩).lo_links = []) := by
  constructor
  · simp [mergeAligned]
  · intro i hb hm
    have hget : (mergeAligned base records).get ⟨i, hm⟩ =
        ⟨(base.get ⟨i, hb⟩).index, (base.get ⟨i, hb⟩).text,
          (mapGet (buildLookup records) (.fin ((base.get ⟨i, hb⟩).index : ℚ))).getD []⟩ := by
      simp [mergeAligned, List.get_map]
    rw [hget]
    refine ⟨rfl, rfl, rfl, fun hnone => ?_⟩
    simp only [List.get_eq_getElem] at hnone
    simp [hnone]

/-- Concrete instantiation of the C1 theorem: a two-segment base with a
response record for the first index only. -/
theorem claim1_witness :
    ((mergeAligned [⟨0, "a"⟩, ⟨7, "b"⟩]
        [.obj [("index", .num (.fin 0)),
               ("lo_links", .arr [.obj [("lo_id", .str "LO1"),
                 ("lo_title", .str "T"), ("confidence", .num (.fin 1))]])]]).get
        ⟨1, by decide⟩).index = 7 ∧
    ((mergeAligned [⟨0, "a"⟩, ⟨7, "b"⟩]
        [.obj [("index", .num (.fin 0)),
               ("lo_links", .arr [.obj [("lo_id", .str "LO1"),
                 ("lo_title", .str "T"), ("confidence", .num (.fin 1))]])]]).get
        ⟨1, by decide⟩).text = "b" := by
  have h := (claim1_merge_preserves_segments
    [⟨0, "a"⟩, ⟨7, "b"⟩]
    [.obj [("index", .num (.fin 0)),
           ("lo_links", .arr [.obj [("lo_id", .str "LO1"),
             ("lo_title", .str "T"), ("confidence", .num (.fin 1))]])]]).2
    1 (by decide) (by decide)
  exact ⟨h.1.trans (by decide), h.2.1.trans (by decide)⟩

/-- C3: for every transcript whose raw paragraph split yields `k`
non-empty paragraphs, `segmentTranscript` returns at most 40 segments, and
exactly `k` segments when `1 ≤ k ≤ 40`. -/
theorem claim3_segment_cap (t : String) :
    (segmentTranscript t).length ≤ 40 ∧
    (1 ≤ (rawParas t).length → (rawParas t).length ≤ 40 →
      (segmentTranscript t).length = (rawParas t).length) := by
  rcases Nat.eq_zero_or_pos (rawParas t).length with h0 | hpos
  · have he : rawParas t = [] := List.length_eq_zero.mp h0
    rw [segmentTranscript_of_no_paras t he]
    exact ⟨by simp, fun h1 _ => by omega⟩
  · have hne : rawParas t ≠ [] := by
      intro hh
      rw [hh] at hpos
      simp at hpos
    rcases le_or_lt (rawParas t).length 40 with hle | hgt
    · rw [segmentTranscript_small t hne hle, withIndexFrom_length]
      exact ⟨hle, fun _ _ => rfl⟩
    · have hcpos : 0 < ((rawParas t).length + 39) / 40 := by omega
      rw [segmentTranscript_large t hgt, withIndexFrom_length, List.length_map,
        chunks_length _ hcpos]
      constructor
      · have hlt : ((rawParas t).length + ((rawParas t).length + 39) / 40 - 1) /
            (((rawParas t).length + 39) / 40) < 41 := by
          rw [Nat.div_lt_iff_lt_mul hcpos]
          omega
        omega
      · intro _ hcon
        omega

/-- Concrete instantiation of the C3 theorem on a three-paragraph
transcript. -/
theorem claim3_witness :
    (segmentTranscript "A\n\nB\n\nC").length ≤ 40 ∧
    (segmentTranscript "A\n\nB\n\nC").length = (rawParas "A\n\nB\n\nC").length :=
  ⟨(claim3_segment_cap _).1, (claim3_segment_cap _).2 (by decide) (by decide)⟩

/-- A transcript made of 200 one-character paragraphs. -/
def para200 : String := String.intercalate "\n\n" (List.replicate 200 "p")

/-- C4 counterexample: on a transcript of 200 raw paragraphs the segmenter
returns 40 segments (chunk size `ceil(200/40) = 5`, hence `200/5 = 40`
groups), not the 5 segments the claim states. -/
theorem claim4_counterexample :
    (rawParas para200).length = 200 ∧
    (segmentTranscript para200).length = 40 ∧
    (segmentTranscript para200).length ≠ 5 := by
  refine ⟨by decide, by decide, by decide⟩

/-- C4 amended: for a transcript of 200 raw paragraphs the segmenter
returns exactly 40 output segments, each the join of 5 consecutive source
paragraphs with a blank line between them. -/
theorem claim4_amended (t : String) (hk : (rawParas t).length = 200) :
    (segmentTranscript t).length = 40 ∧
    ∀ i (h : i < (segmentTranscript t).length),
      ((segmentTranscript t).get ⟨i, h⟩).text =
        String.intercalate "\n\n" (((rawParas t).drop (5 * i)).take 5) ∧
      (((rawParas t).drop (5 * i)).take 5).length = 5 := by
  have hgt : 40 < (rawParas t).length := by omega
  have hmain : segmentTranscript t =
      withIndexFrom 0 ((chunks 5 (rawParas t)).map
        (fun g => String.intercalate "\n\n" g)) := by
    rw [segmentTranscript_large t hgt, hk]
  have hlen : (segmentTranscript t).length = 40 := by
    rw [hmain, withIndexFrom_length, List.length_map, chunks_length 5 (by omega), hk]
  refine ⟨hlen, fun i h => ?_⟩
  have hi40 : i < 40 := by omega
  have h1 : i < (withIndexFrom 0 ((chunks 5 (rawParas t)).map
      (fun g => String.intercalate "\n\n" g))).length := by
    rw [← hmain]; exact h
  have h2 : i < ((chunks 5 (rawParas t)).map
      (fun g => String.intercalate "\n\n" g)).length := by
    rw [withIndexFrom_length] at h1; exact h1
  have h3 : i < (chunks 5 (rawParas t)).length := by
    rw [List.length_map] at h2; exact h2
  constructor
  · have e2 : ((segmentTranscript t).get ⟨i, h⟩).text =
        ((chunks 5 (rawParas t)).map
          (fun g => String.intercalate "\n\n" g)).get ⟨i, h2⟩ := by
      rw [List.get_of_eq hmain, withIndexFrom_get _ _ i h1 h2]
    have e3 : ((chunks 5 (rawParas t)).map
        (fun g => String.intercalate "\n\n" g)).get ⟨i, h2⟩ =
        String.intercalate "\n\n" ((chunks 5 (rawParas t)).get ⟨i, h3⟩) := by
      simp [List.get_eq_getElem, List.getElem_map]
    rw [e2, e3, chunks_get 5 (by omega) _ i h3]
  · rw [List.length_take, List.length_drop, hk]
    omega

/-- Concrete instantiation of the amended C4 theorem at the 200-paragraph
transcript. -/
theorem claim4_witness :
    (rawParas para200).length = 200 ∧ (segmentTranscript para200).length = 40 :=
  ⟨by decide, (claim4_amended para200 (by decide)).1⟩

/-- C8: for every input string, `segmentTranscript` returns a non-empty
list whose indices are exactly `0..n-1`; when the split-and-filter step
yields zero parts it returns a single segment at index 0 containing the
entire trimmed (normalized) input, even when that trimmed input is
empty. -/
theorem claim8_segmenter_total (s : String) :
    segmentTranscript s ≠ [] ∧
    (∀ i (h : i < (segmentTranscript s).length),
      ((segmentTranscript s).get ⟨i, h⟩).index = i) ∧
    (rawParas s = [] → segmentTranscript s = [⟨0, jsTrim (rawText s)⟩]) := by
  refine ⟨?_, ?_, fun h => segmentTranscript_of_no_paras s h⟩
  · rcases Nat.eq_zero_or_pos (rawParas s).length with h0 | hpos
    · rw [segmentTranscript_of_no_paras s (List.length_eq_zero.mp h0)]
      simp
    · have hne : rawParas s ≠ [] := by
        intro hh
        rw [hh] at hpos
        simp at hpos
      rcases le_or_lt (rawParas s).length 40 with hle | hgt
      · rw [segmentTranscript_small s hne hle]
        apply List.ne_nil_of_length_pos
        rw [withIndexFrom_length]
        omega
      · have hcpos : 0 < ((rawParas s).length + 39) / 40 := by omega
        rw [segmentTranscript_large s hgt]
        apply List.ne_nil_of_length_pos
        rw [withIndexFrom_length, List.length_map, chunks_length _ hcpos]
        exact Nat.div_pos (by omega) hcpos
  · intro i h
    rcases Nat.eq_zero_or_pos (rawParas s).length with h0 | hpos
    · have he := segmentTranscript_of_no_paras s (List.length_eq_zero.mp h0)
      have h1 : (segmentTranscript s).length = 1 := by rw [he]; rfl
      have hi : i = 0 := by omega
      subst hi
      have : (segmentTranscript s).get ⟨0, h⟩ = ⟨0, jsTrim (rawText s)⟩ := by
        rw [List.get_of_eq he]
        rfl
      rw [this]
    · have hne : rawParas s ≠ [] := by
        intro hh
        rw [hh] at hpos
        simp at hpos
      rcases le_or_lt (rawParas s).length 40 with hle | hgt
      · have he := segmentTranscript_small s hne hle
        have h1 : i < (withIndexFrom 0 (rawParas s)).length := by
          rw [← he]; exact h
        rw [List.get_of_eq he, withIndexFrom_zero_index]
      · have he := segmentTranscript_large s hgt
        have h1 : i < (withIndexFrom 0 ((chunks (((rawParas s).length + 39) / 40)
            (rawParas s)).map (fun g => String.intercalate "\n\n" g))).length := by
          rw [← he]; exact h
        rw [List.get_of_eq he, withIndexFrom_zero_index]

/-- Concrete instantiation of the C8 theorem: the empty transcript still
produces one segment, at index 0, with empty text. -/
theorem claim8_witness :
    segmentTranscript "" ≠ [] ∧
    ((segmentTranscript "").get ⟨0, by decide⟩).index = 0 ∧
    segmentTranscript "" = [⟨0, jsTrim (rawText "")⟩] := by
  have h := claim8_segmenter_total ""
  exact ⟨h.1, h.2.1 0 (by decide), h.2.2 (by decide)⟩

theorem mergeAligned_get (base : List Segment) (records : List JValue) (i : Nat)
    (hm : i < (mergeAligned base records).length) (hb : i < base.length) :
    (mergeAligned base records).get ⟨i, hm⟩ =
      ⟨(base.get ⟨i, hb⟩).index, (base.get ⟨i, hb⟩).text,
        (mapGet (buildLookup records) (.fin ((base.get ⟨i, hb⟩).index : ℚ))).getD []⟩ := by
  simp [mergeAligned, List.get_map]

theorem foldl_lookup_get (records : List JValue) (k : JNum) :
    ∀ m0 : List (JNum × List LoLink),
      mapGet (records.foldl lookupStep m0) k =
        match lastKept records k with
        | some v => some v
        | none => mapGet m0 k := by
  induction records with
  | nil => intro m0; simp [lastKept]
  | cons item rest ih =>
      intro m0
      rw [List.foldl_cons, ih (lookupStep m0 item)]
      cases hrest : lastKept rest k with
      | some v => simp [lastKept, hrest]
      | none =>
          simp only [lastKept, hrest]
          unfold lookupStep
          cases hp : processRecord item with
          | none => simp
          | some p =>
              obtain ⟨pk, pv⟩ := p
              simp only
              rw [mapGet_mapSet]
              by_cases hk : pk = k <;> simp [hk]

theorem mapGet_buildLookup (records : List JValue) (k : JNum) :
    mapGet (buildLookup records) k = lastKept records k := by
  rw [buildLookup, foldl_lookup_get records k []]
  cases lastKept records k <;> simp [mapGet]

theorem lastKept_some (records : List JValue) (k : JNum) (v : List LoLink) :
    lastKept records k = some v →
    ∃ item ∈ records, processRecord item = some (k, v) := by
  induction records with
  | nil => simp [lastKept]
  | cons item rest ih =>
      intro h
      cases hrest : lastKept rest k with
      | some w =>
          have hw : some w = some v := by
            rw [lastKept, hrest] at h
            exact h
          obtain ⟨r, hr, hpr⟩ := ih (hrest.trans hw)
          exact ⟨r, List.mem_cons_of_mem _ hr, hpr⟩
      | none =>
          have h2 : (match processRecord item with
              | some p => if p.1 = k then some p.2 else none
              | none => none) = some v := by
            rw [lastKept, hrest] at h
            exact h
          cases hp : processRecord item with
          | none =>
              rw [hp] at h2
              exact absurd h2 (by simp)
          | some p =>
              obtain ⟨p1, p2⟩ := p
              rw [hp] at h2
              have h3 : (if p1 = k then some p2 else none) = some v := h2
              by_cases hk : p1 = k
              · subst hk
                rw [if_pos rfl] at h3
                refine ⟨item, List.mem_cons_self _ _, ?_⟩
                rw [hp]
                simp only [Option.some.injEq] at h3
                rw [h3]
              · rw [if_neg hk] at h3
                simp at h3

theorem getField_of_not_truthy (l : JValue) (h : jsTruthy l = false) (k : String) :
    getField l k = .undefined := by
  cases l with
  | obj fields => simp [jsTruthy] at h
  | arr elems => simp [jsTruthy] at h
  | _ => rfl

theorem linkLoId_of_not_truthy (l : JValue) (h : jsTruthy l = false) :
    linkLoId l = "" := by
  unfold linkLoId
  rw [getField_of_not_truthy l h]
  rfl

/-- C2 counterexample: the record-skip test in the code is
`typeof index === "number"`, not integrality — a record whose index is the
non-integer number `3/2` is kept, not skipped; and the link-skip test
coerces `confidence` with `Number(...)` before the finiteness check — a
link whose confidence is the boolean `true` (not a finite number) is kept,
with confidence `Number(true) = 1`. -/
theorem claim2_counterexample :
    jsIsIntegerVal (getField
      (.obj [("index", .num (.fin (mkRat 3 2))), ("lo_links", .arr [])])
      "index") = false ∧
    (processRecord
      (.obj [("index", .num (.fin (mkRat 3 2))), ("lo_links", .arr [])])).isSome = true ∧
    jsIsFiniteNumberVal (getField
      (.obj [("lo_id", .str "LO1"), ("lo_title", .str "T"), ("confidence", .bool true)])
      "confidence") = false ∧
    validateLink
      (.obj [("lo_id", .str "LO1"), ("lo_title", .str "T"), ("confidence", .bool true)]) =
      some ⟨"LO1", "T", 1⟩ := by
  refine ⟨by decide, by decide, by decide, by decide⟩

/-- C2 amended: a response record is skipped entirely if and only if its
`index` field is not a number (integers and non-integers alike are kept —
though a non-integer or non-finite index can never match a base segment)
or its `lo_links` field is not a list; within a kept record, each link is
skipped independently if and only if its `lo_id` is empty after JS string
coercion (with empty-string default for falsy values) and trimming, its
`lo_title` likewise, or its `confidence` does not coerce to a finite
number under the JS `Number(...)` conversion. -/
theorem claim2_amended :
    (∀ item : JValue,
      processRecord item = none ↔
        jsIsNumberVal (getField item "index") = false ∨
        jsIsArrayVal (getField item "lo_links") = false) ∧
    (∀ l : JValue,
      validateLink l = none ↔
        linkLoId l = "" ∨ linkLoTitle l = "" ∨ (linkConf l).isFinite = false) := by
  constructor
  · intro item
    unfold processRecord
    cases hidx : getField item "index" <;>
      cases hlinks : getField item "lo_links" <;>
        simp [jsIsNumberVal, jsIsArrayVal]
  · intro l
    by_cases ht : jsTruthy l = false
    · have hid := linkLoId_of_not_truthy l ht
      simp [validateLink, ht, hid]
    · have ht2 : jsTruthy l = true := by
        cases hv : jsTruthy l
        · exact absurd hv ht
        · rfl
      by_cases hg : linkLoId l = "" ∨ linkLoTitle l = "" ∨ (linkConf l).isFinite = false
      · simp [validateLink, ht2, hg]
      · simp [validateLink, ht2, hg]

/-- Concrete instantiation of the amended C2 theorem. -/
theorem claim2_witness :
    validateLink (JValue.str "x") = none ↔
      linkLoId (JValue.str "x") = "" ∨ linkLoTitle (JValue.str "x") = "" ∨
        (linkConf (JValue.str "x")).isFinite = false :=
  claim2_amended.2 (JValue.str "x")

/-- C5: for every link in the merged output whose source record supplied a
finite numeric confidence `c`, the stored confidence equals
`max(0, min(1, c))`; out-of-range finite values are clamped into `[0, 1]`,
not rejected.  The first conjunct is the clamp equation for any validated
link, the second shows an in-shape link with finite confidence is kept
(not rejected) with the clamped value, and the third ties every link of a
merged output back to `validateLink`. -/
theorem claim5_confidence_clamp :
    (∀ (l : JValue) (lk : LoLink) (c : ℚ),
      validateLink l = some lk →
      getField l "confidence" = .num (.fin c) →
      lk.confidence = max 0 (min 1 c)) ∧
    (∀ (l : JValue) (c : ℚ),
      jsTruthy l = true →
      getField l "confidence" = .num (.fin c) →
      linkLoId l ≠ "" → linkLoTitle l ≠ "" →
      validateLink l = some ⟨linkLoId l, linkLoTitle l, max 0 (min 1 c)⟩) ∧
    (∀ (base : List Segment) (records : List JValue) (i : Nat)
      (h : i < (mergeAligned base records).length) (lk : LoLink),
      lk ∈ ((mergeAligned base records).get ⟨i, h⟩).lo_links →
      ∃ l : JValue, validateLink l = some lk) := by
  refine ⟨?_, ?_, ?_⟩
  · intro l lk c hv hc
    have hcf : linkConf l = .fin c := by
      unfold linkConf
      rw [hc]
      rfl
    unfold validateLink at hv
    by_cases ht : jsTruthy l = false
    · rw [if_pos ht] at hv
      exact absurd hv (by simp)
    · rw [if_neg ht] at hv
      by_cases hg : linkLoId l = "" ∨ linkLoTitle l = "" ∨ (linkConf l).isFinite = false
      · rw [if_pos hg] at hv
        exact absurd hv (by simp)
      · rw [if_neg hg] at hv
        simp only [Option.some.injEq] at hv
        rw [← hv]
        simp [clamp01, hcf, JNum.toQ]
  · intro l c ht hc hid htitle
    have hcf : linkConf l = .fin c := by
      unfold linkConf
      rw [hc]
      rfl
    have hg : ¬(linkLoId l = "" ∨ linkLoTitle l = "" ∨ (linkConf l).isFinite = false) := by
      rw [hcf]
      simp [JNum.isFinite, hid, htitle]
    unfold validateLink
    rw [if_neg (by simp [ht]), if_neg hg, hcf]
    simp [clamp01, JNum.toQ]
  · intro base records i h lk hmem
    have hb : i < base.length := by
      have hlen : (mergeAligned base records).length = base.length := by
        simp [mergeAligned]
      omega
    rw [mergeAligned_get base records i h hb] at hmem
    simp only at hmem
    cases hget : mapGet (buildLookup records) (.fin ((base.get ⟨i, hb⟩).index : ℚ)) with
    | none =>
        rw [hget] at hmem
        simp at hmem
    | some v =>
        rw [hget] at hmem
        simp only [Option.getD_some] at hmem
        rw [mapGet_buildLookup] at hget
        obtain ⟨rec, _, hpr⟩ := lastKept_some records _ v hget
        unfold processRecord at hpr
        cases hix : getField rec "index" with
        | num n =>
            rw [hix] at hpr
            cases hlk : getField rec "lo_links" with
            | arr ls =>
                rw [hlk] at hpr
                have hv : ls.filterMap validateLink = v := by
                  have : some (n, ls.filterMap validateLink) = some (.fin ((base.get ⟨i, hb⟩).index : ℚ), v) := hpr
                  simp only [Option.some.injEq, Prod.mk.injEq] at this
                  exact this.2
                rw [← hv] at hmem
                obtain ⟨l, _, hval⟩ := List.mem_filterMap.mp hmem
                exact ⟨l, hval⟩
            | _ =>
                rw [hlk] at hpr
                exact absurd hpr (by simp)
        | _ =>
            rw [hix] at hpr
            exact absurd hpr (by simp)

/-- Concrete instantiation of the C5 theorem: the spec's own example — a
link with confidence `1.4` is kept with confidence clamped to `1`. -/
theorem claim5_witness :
    validateLink (.obj [("lo_id", .str "LO1"), ("lo_title", .str "Classify X"),
        ("confidence", .num (.fin (mkRat 14 10)))]) =
      some ⟨"LO1", "Classify X", max 0 (min 1 (mkRat 14 10))⟩ ∧
    max (0 : ℚ) (min 1 (mkRat 14 10)) = 1 := by
  constructor
  · have h := claim5_confidence_clamp.2.1
      (.obj [("lo_id", .str "LO1"), ("lo_title", .str "Classify X"),
        ("confidence", .num (.fin (mkRat 14 10)))])
      (mkRat 14 10) (by decide) (by rfl) (by decide) (by decide)
    exact h.trans (by decide)
  · decide

theorem parseAlignmentResponse_not_array (raw : String)
    (hbad : jsIsArrayVal (getField ((tryParseJSON (stripCodeFences raw)).getD .null)
      "segments") = false) :
    parseAlignmentResponse raw = .error "LO alignment JSON parse/schema error" := by
  simp only [parseAlignmentResponse]
  cases hseg : getField ((tryParseJSON (stripCodeFences raw)).getD .null) "segments"
  case arr xs => rw [hseg] at hbad; simp [jsIsArrayVal] at hbad
  all_goals (split <;> rfl)

theorem parseAlignmentResponse_ok (raw : String) (v : JValue) (xs : List JValue)
    (hv : tryParseJSON (stripCodeFences raw) = some v)
    (hseg : getField v "segments" = .arr xs) :
    parseAlignmentResponse raw = .ok xs := by
  simp [parseAlignmentResponse, hv, hseg, jsTruthy]

theorem parseAlignmentResponse_error_msg (raw : String) (e : String)
    (h : parseAlignmentResponse raw = .error e) :
    e = "LO alignment JSON parse/schema error" := by
  simp only [parseAlignmentResponse] at h
  by_cases ht : jsTruthy (getField ((tryParseJSON (stripCodeFences raw)).getD .null)
      "segments") = false
  · rw [if_pos ht] at h
    simp only [Except.error.injEq] at h
    exact h.symm
  · rw [if_neg ht] at h
    split at h
    · exact absurd h (by simp)
    · simp only [Except.error.injEq] at h
      exact h.symm

theorem segmentTranscript_ne_nil (s : String) : segmentTranscript s ≠ [] := by
  rcases Nat.eq_zero_or_pos (rawParas s).length with h0 | hpos
  · rw [segmentTranscript_of_no_paras s (List.length_eq_zero.mp h0)]
    simp
  · have hne : rawParas s ≠ [] := by
      intro hh
      rw [hh] at hpos
      simp at hpos
    rcases le_or_lt (rawParas s).length 40 with hle | hgt
    · rw [segmentTranscript_small s hne hle]
      apply List.ne_nil_of_length_pos
      rw [withIndexFrom_length]
      omega
    · have hcpos : 0 < ((rawParas s).length + 39) / 40 := by omega
      rw [segmentTranscript_large s hgt]
      apply List.ne_nil_of_length_pos
      rw [withIndexFrom_length, List.length_map, chunks_length _ hcpos]
      exact Nat.div_pos (by omega) hcpos

/-- C6: after stripping code-fence wrapping from the model's reply, the
pipeline fails with the parse/schema error when the stripped text is not
valid JSON, and with the same (schema) error when the text is valid JSON
but lacks a top-level `segments` list; in both cases no merge is attempted
and no aligned segments are produced; when the stripped text is valid JSON
with a top-level `segments` array, no such error is raised.  (The source
raises one `Error` whose message covers both named conditions,
server.ts:972.) -/
theorem claim6_parse_schema_errors (raw : String) :
    ((tryParseJSON (stripCodeFences raw)).isNone = true →
      parseAlignmentResponse raw = .error "LO alignment JSON parse/schema error") ∧
    (∀ v : JValue, tryParseJSON (stripCodeFences raw) = some v →
      jsIsArrayVal (getField v "segments") = false →
      parseAlignmentResponse raw = .error "LO alignment JSON parse/schema error") ∧
    (∀ (v : JValue) (xs : List JValue), tryParseJSON (stripCodeFences raw) = some v →
      getField v "segments" = .arr xs →
      parseAlignmentResponse raw = .ok xs) ∧
    (∀ (lec : String) (los : List String) (out : List LoAlignedSegment),
      jsIsArrayVal (getField ((tryParseJSON (stripCodeFences raw)).getD .null)
        "segments") = false →
      generateLoAlignmentForLesson lec los raw ≠ .ok out) := by
  refine ⟨?_, ?_, ?_, ?_⟩
  · intro h
    apply parseAlignmentResponse_not_array
    rw [Option.isNone_iff_eq_none] at h
    rw [h]
    rfl
  · intro v hv hbad
    apply parseAlignmentResponse_not_array
    rw [hv]
    exact hbad
  · exact fun v xs hv hseg => parseAlignmentResponse_ok raw v xs hv hseg
  · intro lec los out hbad
    have herr := parseAlignmentResponse_not_array raw hbad
    simp only [generateLoAlignmentForLesson]
    by_cases h1 : (segmentTranscript lec).isEmpty = true
    · rw [if_pos h1]
      simp
    · rw [if_neg h1]
      by_cases h2 : (normalizeLOs los).isEmpty = true
      · rw [if_pos h2]
        simp
      · rw [if_neg h2, herr]
        simp

/-- Concrete instantiation of the C6 theorem: the spec's `"not json"`
example fails, a reply with the wrong top-level key fails, and a
well-shaped reply parses. -/
theorem claim6_witness :
    parseAlignmentResponse "not json" = .error "LO alignment JSON parse/schema error" ∧
    parseAlignmentResponse "\x7b\"lessons\": []\x7d" =
      .error "LO alignment JSON parse/schema error" ∧
    parseAlignmentResponse "\x7b\"segments\": []\x7d" = .ok [] := by
  refine ⟨(claim6_parse_schema_errors "not json").1 (by decide),
    (claim6_parse_schema_errors _).2.1 (.obj [("lessons", .arr [])]) (by rfl) (by decide),
    (claim6_parse_schema_errors _).2.2.1 (.obj [("segments", .arr [])]) [] (by rfl) (by rfl)⟩

theorem loLines_length (n : Nat) (l : List String) :
    (loLines n l).length = l.length := by
  induction l generalizing n with
  | nil => rfl
  | cons t ts ih => simp [loLines, ih]

theorem loLines_get (n : Nat) (l : List String) (i : Nat)
    (h : i < (loLines n l).length) (h2 : i < l.length) :
    (loLines n l).get ⟨i, h⟩ = "LO" ++ Nat.repr (n + i + 1) ++ ": " ++ l.get ⟨i, h2⟩ := by
  induction l generalizing n i with
  | nil => simp at h2
  | cons t ts ih =>
      cases i with
      | zero => simp [loLines]
      | succ j =>
          have hj : j < ts.length := by simpa using h2
          have hh : j < (loLines (n + 1) ts).length := by
            rw [loLines_length]
            exact hj
          have := ih (n + 1) j hh hj
          simp only [loLines, List.get_cons_succ]
          rw [this, show n + 1 + j + 1 = n + (j + 1) + 1 from by omega]

/-- C7: outcome normalization trims each raw outcome, drops entries that
are empty after trimming, assigns ids `LO1, LO2, …` by 1-based position in
the filtered list (positions of dropped entries are not reserved), and the
aligner fails with the empty-outcomes error exactly when the filtered list
is empty — in which case the failure is independent of the model reply
(no model call is consulted). -/
theorem claim7_outcome_normalization (raw : List String) :
    (normalizeLOs raw = (raw.map (fun t => jsTrim t)).filter (fun t => t ≠ "")) ∧
    ((loCatalogue (normalizeLOs raw)).length = (normalizeLOs raw).length) ∧
    (∀ i (h2 : i < (loCatalogue (normalizeLOs raw)).length)
      (h1 : i < (normalizeLOs raw).length),
      (loCatalogue (normalizeLOs raw)).get ⟨i, h2⟩ =
        "LO" ++ Nat.repr (i + 1) ++ ": " ++ (normalizeLOs raw).get ⟨i, h1⟩) ∧
    (∀ (lec reply : String),
      normalizeLOs raw = [] ↔
        generateLoAlignmentForLesson lec raw reply =
          .error "Learning Outcomes list is empty; LO alignment requires LOs.") := by
  refine ⟨rfl, loLines_length 0 _, ?_, ?_⟩
  · intro i h2 h1
    have := loLines_get 0 (normalizeLOs raw) i h2 h1
    simp only [loCatalogue]
    rw [this, show 0 + i + 1 = i + 1 from by omega]
  · intro lec reply
    constructor
    · intro hempty
      simp only [generateLoAlignmentForLesson]
      rw [if_neg (by simp [segmentTranscript_ne_nil lec]),
        if_pos (by simp [hempty])]
    · intro hgen
      by_contra hne
      simp only [generateLoAlignmentForLesson] at hgen
      rw [if_neg (by simp [segmentTranscript_ne_nil lec]),
        if_neg (by simp [hne])] at hgen
      cases hparse : parseAlignmentResponse reply with
      | error e =>
          rw [hparse] at hgen
          simp only [Except.error.injEq] at hgen
          have := parseAlignmentResponse_error_msg reply e hparse
          rw [this] at hgen
          exact absurd hgen (by decide)
      | ok recs =>
          rw [hparse] at hgen
          exact absurd hgen (by simp)

/-- Concrete instantiation of the C7 theorem: a blank entry is dropped and
ids follow positions in the filtered list; a list that is empty after
trimming fails with the empty-outcomes error for any reply. -/
theorem claim7_witness :
    (loCatalogue (normalizeLOs ["", "  A ", "B"])).get ⟨0, by decide⟩ = "LO1: A" ∧
    generateLoAlignmentForLesson "x" [" "] "y" =
      .error "Learning Outcomes list is empty; LO alignment requires LOs." := by
  constructor
  · have h := (claim7_outcome_normalization ["", "  A ", "B"]).2.2.1 0 (by decide) (by decide)
    exact h.trans (by decide)
  · exact ((claim7_outcome_normalization [" "]).2.2.2 "x" "y").mp (by decide)

theorem except_bind_ok (x : α) (f : α → Except ε β) :
    (Except.ok x >>= f : Except ε β) = f x := rfl

theorem except_map_ok (x : α) (f : α → β) :
    (Except.map f (Except.ok x) : Except ε β) = .ok (f x) := rfl

theorem getFieldE_of_truthy (l : JValue) (h : jsTruthy l = true) (k : String) :
    getFieldE l k = .ok (getField l k) := by
  cases l with
  | null => simp [jsTruthy] at h
  | undefined => simp [jsTruthy] at h
  | _ => rfl

theorem validateLinkE_eq (l : JValue) : validateLinkE l = .ok (validateLink l) := by
  by_cases ht : jsTruthy l = false
  · simp [validateLinkE, validateLink, ht]
  · have ht2 : jsTruthy l = true := by
      cases hv : jsTruthy l
      · exact absurd hv ht
      · rfl
    rw [validateLinkE, validateLink, if_neg ht, if_neg ht,
      getFieldE_of_truthy l ht2, getFieldE_of_truthy l ht2, getFieldE_of_truthy l ht2]
    simp only [except_bind_ok]
    unfold linkLoId linkLoTitle linkConf
    split <;> rfl

theorem collectLinksE_eq (ls : List JValue) :
    collectLinksE ls = .ok (ls.filterMap validateLink) := by
  induction ls with
  | nil => rfl
  | cons l ls ih =>
      rw [collectLinksE, validateLinkE_eq l]
      cases hv : validateLink l <;>
        simp [hv, ih, List.filterMap_cons, except_bind_ok]

theorem processRecordE_eq (item : JValue) :
    processRecordE item = .ok (processRecord item) := by
  unfold processRecordE processRecord
  cases getField item "index" <;> cases getField item "lo_links" <;>
    simp [collectLinksE_eq, except_map_ok]

theorem lookupStep_none (m0 : List (JNum × List LoLink)) (item : JValue)
    (hp : processRecord item = none) : lookupStep m0 item = m0 := by
  unfold lookupStep
  rw [hp]

theorem lookupStep_some (m0 : List (JNum × List LoLink)) (item : JValue)
    (p : JNum × List LoLink) (hp : processRecord item = some p) :
    lookupStep m0 item = mapSet m0 p.1 p.2 := by
  unfold lookupStep
  rw [hp]

theorem buildLookupE_eq (records : List JValue) :
    buildLookupE records = .ok (buildLookup records) := by
  suffices h : ∀ m0 : List (JNum × List LoLink),
      records.foldlM
        (fun m item => do
          match ← processRecordE item with
          | none => pure m
          | some p => pure (mapSet m p.1 p.2))
        m0 = .ok (records.foldl lookupStep m0) by
    exact h []
  induction records with
  | nil => intro m0; rfl
  | cons item rest ih =>
      intro m0
      rw [List.foldlM_cons, List.foldl_cons, processRecordE_eq item]
      cases hp : processRecord item with
      | none =>
          rw [lookupStep_none m0 item hp]
          simp [hp, ih, except_bind_ok]
      | some p =>
          rw [lookupStep_some m0 item p hp]
          simp [hp, ih, except_bind_ok]

/-- C9: given any response whose top-level `segments` field is a list, the
merge step never throws — even with throwing JS property-access semantics
on the malformed records and links it meets — and the result is the total
merge, one output per base segment. -/
theorem claim9_merge_never_throws (base : List Segment) (records : List JValue) :
    mergeE base records = .ok (mergeAligned base records) ∧
    (mergeAligned base records).length = base.length := by
  constructor
  · rw [mergeE, buildLookupE_eq]
    rfl
  · simp [mergeAligned]

/-- C10: when the model response contains two or more kept records
declaring the same index, the merged output for that index carries only
the validated links of the last such record in response order; links from
earlier duplicate records are silently discarded.  (`Map.set` overwrites,
so the lookup holds exactly the last kept record's links for every
index.) -/
theorem claim10_duplicate_last_wins :
    (∀ (records : List JValue) (k : JNum),
      mapGet (buildLookup records) k = lastKept records k) ∧
    (∀ (base : List Segment) (records : List JValue) (i : Nat)
      (hb : i < base.length) (hm : i < (mergeAligned base records).length),
      ((mergeAligned base records).get ⟨i, hm⟩).lo_links =
        (lastKept records (.fin ((base.get ⟨i, hb⟩).index : ℚ))).getD []) := by
  refine ⟨mapGet_buildLookup, ?_⟩
  intro base records i hb hm
  rw [mergeAligned_get base records i hm hb]
  simp only
  rw [mapGet_buildLookup]

/-- Concrete instantiation of the C10 theorem: two kept records declare
index 0; the merged output carries only the second record's link. -/
theorem claim10_witness :
    ((mergeAligned [⟨0, "t"⟩]
        [.obj [("index", .num (.fin 0)), ("lo_links", .arr [.obj [("lo_id", .str "LO1"),
           ("lo_title", .str "A"), ("confidence", .num (.fin 1))]])],
         .obj [("index", .num (.fin 0)), ("lo_links", .arr [.obj [("lo_id", .str "LO2"),
           ("lo_title", .str "B"), ("confidence", .num (.fin 1))]])]]).get
      ⟨0, by decide⟩).lo_links =
      (lastKept
        [.obj [("index", .num (.fin 0)), ("lo_links", .arr [.obj [("lo_id", .str "LO1"),
           ("lo_title", .str "A"), ("confidence", .num (.fin 1))]])],
         .obj [("index", .num (.fin 0)), ("lo_links", .arr [.obj [("lo_id", .str "LO2"),
           ("lo_title", .str "B"), ("confidence", .num (.fin 1))]])]]
        (.fin 0)).getD [] ∧
    (lastKept
        [.obj [("index", .num (.fin 0)), ("lo_links", .arr [.obj [("lo_id", .str "LO1"),
           ("lo_title", .str "A"), ("confidence", .num (.fin 1))]])],
         .obj [("index", .num (.fin 0)), ("lo_links", .arr [.obj [("lo_id", .str "LO2"),
           ("lo_title", .str "B"), ("confidence", .num (.fin 1))]])]]
        (.fin 0)).getD [] = [⟨"LO2", "B", 1⟩] := by
  constructor
  · have h := claim10_duplicate_last_wins.2
      [⟨0, "t"⟩]
      [.obj [("index", .num (.fin 0)), ("lo_links", .arr [.obj [("lo_id", .str "LO1"),
         ("lo_title", .str "A"), ("confidence", .num (.fin 1))]])],
       .obj [("index", .num (.fin 0)), ("lo_links", .arr [.obj [("lo_id", .str "LO2"),
         ("lo_title", .str "B"), ("confidence", .num (.fin 1))]])]]
      0 (by decide) (by decide)
    simpa using h
  · decide
